import Mathlib

/-!
Formal model of the rerun development-loop supervisor (liut/rerun).

The repository contains two variants of the program: the file rerun.go
(functions scanChanges, gobuild, goinstall, gotest, run, refresh, rerun)
and an unnamed variant (functions scanChanges, install, test, gobuild,
run, rerun).  Both are shallowly embedded below: external commands are
modelled by their observable outcome (exit status plus merged captured
output), the supervisor control loop by a state machine over an explicit
list of restart signals, and the directory walk by a recursive function
over a tree of named filesystem entries.
-/

/-! ## Process supervisor (function run, identical control loop in both files)

The control loop in run is

    var proc *os.Process
    for relaunch := range ch {
        if proc != nil {
            if err := proc.Signal(os.Interrupt); err != nil { proc.Kill() }
            proc.Wait()
        }
        if !relaunch { continue }
        cmd := exec.Command(bin, args...)
        err := cmd.Start()
        ...
        proc = cmd.Process
    }

Instances are numbered by a fresh counter.  Each consumed signal is a pair
(relaunch, startOk) where startOk models whether cmd.Start() succeeds
(on failure cmd.Process is nil, so the loop reverts to tracking nothing).
The loop emits a RunEvent.wait when proc.Wait() completes (this covers
both the graceful-interrupt and the escalated-kill path, since Wait is
called unconditionally afterwards) and a RunEvent.start when a new child
process is created.
-/

inductive RunEvent where
  | wait (id : Nat)
  | start (id : Nat)
deriving DecidableEq

structure RunState where
  proc : Option Nat
  next : Nat
deriving DecidableEq

def runStep (s : RunState) (relaunch startOk : Bool) : RunState × List RunEvent :=
  let waitEvs : List RunEvent :=
    match s.proc with
    | some id => [RunEvent.wait id]
    | none => []
  if relaunch = false then
    (s, waitEvs)
  else if startOk then
    ({ proc := some s.next, next := s.next + 1 }, waitEvs ++ [RunEvent.start s.next])
  else
    ({ s with proc := none }, waitEvs)

def runLoop : RunState → List (Bool × Bool) → List RunEvent
  | _, [] => []
  | s, sig :: rest =>
      (runStep s sig.1 sig.2).2 ++ runLoop (runStep s sig.1 sig.2).1 rest

/-- The event trace of the control loop started by run, from the initial
state (no tracked process, fresh counter 0), over a list of consumed
restart signals. -/
def run (sigs : List (Bool × Bool)) : List RunEvent :=
  runLoop { proc := none, next := 0 } sigs

/-- Alive set transformer: a start makes an instance alive, a completed
wait removes it. -/
def aliveStep (a : List Nat) : RunEvent → List Nat
  | RunEvent.wait i => a.erase i
  | RunEvent.start j => j :: a

/-- Checks that every start event in the trace happens when no instance is
alive (started but not yet waited on): the previous instance's Wait has
completed before any new start. -/
def singleInstanceTrace : List Nat → List RunEvent → Bool
  | _, [] => true
  | a, RunEvent.wait i :: rest => singleInstanceTrace (a.erase i) rest
  | a, RunEvent.start j :: rest => a.isEmpty && singleInstanceTrace [j] rest

/-- Checks that at every point of the trace at most one instance is alive. -/
def alivePrefixBounded : List Nat → List RunEvent → Bool
  | a, [] => decide (a.length ≤ 1)
  | a, e :: rest => decide (a.length ≤ 1) && alivePrefixBounded (aliveStep a e) rest

theorem runLoop_singleInstance (sigs : List (Bool × Bool)) :
    ∀ (s : RunState) (a : List Nat),
      (a = [] ∨ ∃ id, s.proc = some id ∧ a = [id]) →
      singleInstanceTrace a (runLoop s sigs) = true := by
  induction sigs with
  | nil => intro s a _; rfl
  | cons sig rest ih =>
      intro s a h
      obtain ⟨rl, so⟩ := sig
      cases hp : s.proc with
      | none =>
          have ha : a = [] := by
            rcases h with h | ⟨id, hp2, _⟩
            · exact h
            · rw [hp] at hp2; cases hp2
          subst ha
          cases rl with
          | false =>
              simpa [runLoop, runStep, hp] using ih s [] (Or.inl rfl)
          | true =>
              cases so with
              | false =>
                  simpa [runLoop, runStep, hp] using
                    ih { s with proc := none } [] (Or.inl rfl)
              | true =>
                  have h2 := ih { proc := some s.next, next := s.next + 1 }
                    [s.next] (Or.inr ⟨s.next, rfl, rfl⟩)
                  simpa [runLoop, runStep, hp, singleInstanceTrace] using h2
      | some id =>
          have ha : a.erase id = [] := by
            rcases h with h | ⟨id2, hp2, ha2⟩
            · simp [h]
            · rw [hp] at hp2
              injection hp2 with hid
              subst hid; subst ha2
              simp
          cases rl with
          | false =>
              have h2 := ih s [] (Or.inl rfl)
              simpa [runLoop, runStep, hp, singleInstanceTrace, ha] using h2
          | true =>
              cases so with
              | false =>
                  have h2 := ih { s with proc := none } [] (Or.inl rfl)
                  simpa [runLoop, runStep, hp, singleInstanceTrace, ha] using h2
              | true =>
                  have h2 := ih { proc := some s.next, next := s.next + 1 }
                    [s.next] (Or.inr ⟨s.next, rfl, rfl⟩)
                  simpa [runLoop, runStep, hp, singleInstanceTrace, ha] using h2

theorem singleInstanceTrace_bounded (evs : List RunEvent) :
    ∀ a : List Nat, singleInstanceTrace a evs = true → a.length ≤ 1 →
      alivePrefixBounded a evs = true := by
  induction evs with
  | nil => intro a _ ha; simp [alivePrefixBounded, ha]
  | cons e rest ih =>
      intro a hs ha
      cases e with
      | wait i =>
          have hsub : (a.erase i).length ≤ a.length :=
            List.Sublist.length_le (List.erase_sublist i a)
          have h2 : (a.erase i).length ≤ 1 := le_trans hsub ha
          have hs2 : singleInstanceTrace (a.erase i) rest = true := by
            simpa [singleInstanceTrace] using hs
          simp [alivePrefixBounded, aliveStep, ha]
          exact ih _ hs2 h2
      | start j =>
          have hs2 : a.isEmpty = true ∧ singleInstanceTrace [j] rest = true := by
            simpa [singleInstanceTrace, Bool.and_eq_true] using hs
          have ha0 : a = [] := by
            cases a with
            | nil => rfl
            | cons x xs => simp [List.isEmpty] at hs2
          subst ha0
          simp [alivePrefixBounded, aliveStep]
          exact ih [j] hs2.2 (by simp)

/-- C1: for every sequence of restart signals consumed by the control loop
started by run, every start of a new instance happens only after the
previously tracked instance's Wait call has completed (singleInstanceTrace),
and at most one instance is alive at any point of the trace
(alivePrefixBounded). -/
theorem run_single_instance (sigs : List (Bool × Bool)) :
    singleInstanceTrace [] (run sigs) = true ∧
    alivePrefixBounded [] (run sigs) = true := by
  have h := runLoop_singleInstance sigs { proc := none, next := 0 } [] (Or.inl rfl)
  exact ⟨h, singleInstanceTrace_bounded _ [] h (by simp)⟩

/-! ## Pipeline stages

External commands are modelled by their observable outcome: exit status
(exitOk, true when cmd.Run() returns nil) and the merged stdout/stderr
captured in the shared buffer (output). -/

structure CmdResult where
  exitOk : Bool
  output : String
deriving DecidableEq

/-- Per-run results of the three external stage commands. -/
structure Env where
  test : CmdResult
  build : CmdResult
  install : CmdResult
deriving DecidableEq

/-- gotest (rerun.go) and test (unnamed variant): the stage passes iff the
command exits zero. -/
def gotest (r : CmdResult) : Bool := r.exitOk

/-- gobuild (both files): the stage passes iff the command exits zero. -/
def gobuild (r : CmdResult) : Bool := r.exitOk

/-- goinstall (rerun.go): ok iff cmd.Run() returned nil, i.e. iff the
command exits zero; the captured output is only printed on failure and is
never consulted for the verdict. -/
def goinstall (r : CmdResult) : Bool := r.exitOk

structure InstallResult where
  installed : Bool
  errorOutput : String
  err : Option String
  printed : Bool
deriving DecidableEq

/-- install (unnamed variant):

    err = cmd.Run()
    if buf.Len() > 0 {
        errorOutput = buf.String()
        if errorOutput != lastError { fmt.Print(errorOutput) }
        err = errors.New("compile error")
        return
    }
    installed = true
    return

Any captured output makes err non-nil; with empty output err is the
command's own run error (nil iff exit zero) while installed is still set
to true.  printed records whether the output was re-emitted to the
operator. -/
def install (r : CmdResult) (lastError : String) : InstallResult :=
  let runErr : Option String := if r.exitOk then none else some "exit status"
  if r.output != "" then
    { installed := false
      errorOutput := r.output
      err := some "compile error"
      printed := r.output != lastError }
  else
    { installed := true, errorOutput := "", err := runErr, printed := false }

inductive Stage where
  | test
  | build
  | install
deriving DecidableEq

inductive PipelineResult where
  | passed
  | failed (stage : String) (output : String)
deriving DecidableEq

/-- Observable outcome of one refresh call (rerun.go): the stages whose
command was invoked, in order; the signals sent on ch; and the abstract
pipeline result (which stage failed first, with its captured output). -/
structure RefreshOut where
  stages : List Stage
  signals : List Bool
  result : PipelineResult
deriving DecidableEq

/-- refresh (rerun.go): test (if -test) then build (if -build) then
goinstall; on the first failing stage it sends false on ch and returns,
otherwise it sends true after goinstall succeeds. -/
def refresh (do_tests do_build : Bool) (env : Env) : RefreshOut :=
  if do_tests && !(gotest env.test) then
    { stages := [Stage.test], signals := [false]
      result := PipelineResult.failed "test" env.test.output }
  else
    let ts : List Stage := if do_tests then [Stage.test] else []
    if do_build && !(gobuild env.build) then
      { stages := ts ++ [Stage.build], signals := [false]
        result := PipelineResult.failed "build" env.build.output }
    else
      let bs : List Stage := if do_build then [Stage.build] else []
      if !(goinstall env.install) then
        { stages := ts ++ bs ++ [Stage.install], signals := [false]
          result := PipelineResult.failed "install" env.install.output }
      else
        { stages := ts ++ bs ++ [Stage.install], signals := [true]
          result := PipelineResult.passed }

/-- Observable outcome of one pipeline pass of rerun (unnamed variant):
invoked stages, signals sent on runch, whether the install stage
re-emitted its output, and the err returned by install (none when no
install ran in this pass). -/
structure RerunOut where
  stages : List Stage
  signals : List Bool
  installPrinted : Bool
  installErr : Option String
deriving DecidableEq

/-- The initial pipeline pass in rerun (unnamed variant):

    no_run := false
    if *do_tests { if !test(..) { no_run = true } }
    if *do_build && !no_run { gobuild(..) }
    var errorOutput string
    _, errorOutput, ierr := install(buildpath, errorOutput)
    if !no_run && !(*never_run) && ierr == nil { runch <- true }

Note that install is invoked unconditionally, that gobuild's result is
ignored, and that install receives the freshly zero-initialised
errorOutput ("") as lastError. -/
def rerunInit (do_tests do_build never_run : Bool) (env : Env) : RerunOut :=
  let no_run := do_tests && !(gotest env.test)
  let ts : List Stage := if do_tests then [Stage.test] else []
  let bs : List Stage := if do_build && !no_run then [Stage.build] else []
  let ir := install env.install ""
  { stages := ts ++ bs ++ [Stage.install]
    signals := if !no_run && !never_run && ir.err.isNone then [true] else []
    installPrinted := ir.printed
    installErr := ir.err }

/-- The watch callback in rerun (unnamed variant):

    if *do_tests { passed, _ := test(..); if !passed { return } }
    if *do_build { gobuild(..) }
    var errorOutput string
    _, errorOutput, ierr := install(buildpath, errorOutput)
    if !(*never_run) && ierr == nil { runch <- true }

On test failure it returns before build and install and sends nothing.
gobuild's result is ignored; install always receives lastError = ""
because errorOutput is a fresh local of each callback invocation. -/
def rerunCallback (do_tests do_build never_run : Bool) (env : Env) : RerunOut :=
  if do_tests && !(gotest env.test) then
    { stages := [Stage.test], signals := [], installPrinted := false
      installErr := none }
  else
    let ts : List Stage := if do_tests then [Stage.test] else []
    let bs : List Stage := if do_build then [Stage.build] else []
    let ir := install env.install ""
    { stages := ts ++ bs ++ [Stage.install]
      signals := if !never_run && ir.err.isNone then [true] else []
      installPrinted := ir.printed
      installErr := ir.err }

/-! ## Pipeline claims -/

/-- An environment where the test command fails with output. -/
def envTestFail : Env :=
  { test := { exitOk := false, output := "FAIL" }
    build := { exitOk := true, output := "" }
    install := { exitOk := true, output := "" } }

/-- C2 counterexample: with tests enabled and the test stage failing,
refresh (rerun.go) does send a signal on the control channel (false, which
terminates the currently running instance without relaunch), and the
initial pipeline pass of rerun (unnamed variant) still invokes the install
stage.  Both contradict the claim that build and install are not invoked
and no signal of any kind is sent. -/
theorem refresh_sends_stop_on_test_failure :
    (refresh true true envTestFail).signals = [false] ∧
    Stage.install ∈ (rerunInit true true false envTestFail).stages ∧
    envTestFail.test.exitOk = false ∧
    runLoop { proc := some 0, next := 1 } [(false, true)] = [RunEvent.wait 0] := by
  refine ⟨rfl, ?_, rfl, rfl⟩
  decide

/-- C2 (amended): when tests are enabled and the test stage fails, build
is never invoked; refresh (rerun.go) skips install too but sends a stop
signal (false) on the channel, terminating the current instance without
relaunch; the initial pass of rerun (unnamed variant) still invokes
install but sends nothing; the watch callback of rerun (unnamed variant)
invokes nothing further and sends nothing. -/
theorem test_failure_behavior (do_build never_run : Bool) (env : Env)
    (hfail : env.test.exitOk = false) :
    (refresh true do_build env).stages = [Stage.test] ∧
    (refresh true do_build env).signals = [false] ∧
    Stage.build ∉ (rerunInit true do_build never_run env).stages ∧
    Stage.install ∈ (rerunInit true do_build never_run env).stages ∧
    (rerunInit true do_build never_run env).signals = [] ∧
    (rerunCallback true do_build never_run env).stages = [Stage.test] ∧
    (rerunCallback true do_build never_run env).signals = [] := by
  refine ⟨?_, ?_, ?_, ?_, ?_, ?_, ?_⟩ <;>
    simp [refresh, rerunInit, rerunCallback, gotest, hfail]

theorem test_failure_behavior_witness :
    (refresh true true envTestFail).stages = [Stage.test] ∧
    (refresh true true envTestFail).signals = [false] ∧
    Stage.build ∉ (rerunInit true true false envTestFail).stages ∧
    Stage.install ∈ (rerunInit true true false envTestFail).stages ∧
    (rerunInit true true false envTestFail).signals = [] ∧
    (rerunCallback true true false envTestFail).stages = [Stage.test] ∧
    (rerunCallback true true false envTestFail).signals = [] :=
  test_failure_behavior true false envTestFail rfl

/-- An environment where the build command exits non-zero with output
"syntax error" while test and install succeed. -/
def envBuildFail : Env :=
  { test := { exitOk := true, output := "" }
    build := { exitOk := false, output := "syntax error" }
    install := { exitOk := true, output := "" } }

/-- C3 counterexample: in the watch callback of rerun (unnamed variant),
with build enabled and the build command exiting non-zero, the install
stage is still invoked (the gobuild result is ignored), and a relaunch
signal is even sent when install succeeds — contradicting the claim that
the install stage is not invoked in a run whose build fails. -/
theorem rerun_runs_install_after_build_failure :
    Stage.install ∈ (rerunCallback false true false envBuildFail).stages ∧
    (rerunCallback false true false envBuildFail).signals = [true] ∧
    envBuildFail.build.exitOk = false := by
  refine ⟨?_, rfl, rfl⟩
  decide

/-- C3 (amended): with build enabled and the build command exiting
non-zero, refresh (rerun.go) behaves as claimed: the result is
Failed("build", capturedOutput), install is not invoked, and a stop
signal (false) is sent; but in the watch callback of rerun (unnamed
variant) the build result is ignored and install is invoked regardless. -/
theorem build_failure_behavior (do_tests never_run : Bool) (env : Env)
    (htest : do_tests = false ∨ env.test.exitOk = true)
    (hbf : env.build.exitOk = false) :
    (refresh do_tests true env).result
      = PipelineResult.failed "build" env.build.output ∧
    Stage.install ∉ (refresh do_tests true env).stages ∧
    (refresh do_tests true env).signals = [false] ∧
    Stage.install ∈ (rerunCallback do_tests true never_run env).stages := by
  rcases htest with h | h
  · subst h
    refine ⟨?_, ?_, ?_, ?_⟩ <;> simp [refresh, rerunCallback, gotest, gobuild, hbf]
  · cases hdt : do_tests <;>
      refine ⟨?_, ?_, ?_, ?_⟩ <;>
        simp [refresh, rerunCallback, gotest, gobuild, hbf, h]

theorem build_failure_behavior_witness :
    (refresh false true envBuildFail).result
      = PipelineResult.failed "build" envBuildFail.build.output ∧
    Stage.install ∉ (refresh false true envBuildFail).stages ∧
    (refresh false true envBuildFail).signals = [false] ∧
    Stage.install ∈ (rerunCallback false true false envBuildFail).stages :=
  build_failure_behavior false false envBuildFail (Or.inl rfl) rfl

/-- An environment whose install command exits zero but produces output. -/
def envInstallNoisy : Env :=
  { test := { exitOk := true, output := "" }
    build := { exitOk := true, output := "" }
    install := { exitOk := true, output := "go: downloading dep" } }

/-- C4 counterexample: goinstall (rerun.go) reports success for a command
that exits zero while producing captured output, and refresh consequently
sends a relaunch signal — contradicting the claim that the install stage
fails whenever it produces any captured output at all. -/
theorem goinstall_ignores_output :
    goinstall envInstallNoisy.install = true ∧
    (refresh false false envInstallNoisy).signals = [true] ∧
    envInstallNoisy.install.output ≠ "" := by
  refine ⟨rfl, rfl, ?_⟩
  decide

/-- C4 (amended): in the unnamed variant, install's err is nil exactly
when the command exits zero and the captured output is empty (so the watch
callback relaunches exactly in that case), while the installed flag is
true exactly when the output is empty, even on a non-zero exit; in
rerun.go, goinstall succeeds exactly when the exit code is zero and the
captured output is ignored. -/
theorem install_stage_semantics (r : CmdResult) (lastError : String) (env : Env) :
    ((install r lastError).err = none ↔ (r.exitOk = true ∧ r.output = "")) ∧
    (install r lastError).installed = (r.output == "") ∧
    goinstall r = r.exitOk ∧
    (rerunCallback false false false env).signals
      = (if (install env.install "").err.isNone then [true] else []) := by
  refine ⟨?_, ?_, rfl, ?_⟩
  · by_cases ho : r.output = "" <;> cases hx : r.exitOk <;>
      simp [install, ho, hx]
  · by_cases ho : r.output = "" <;> cases hx : r.exitOk <;>
      simp [install, ho, hx]
  · simp [rerunCallback]

/-- An environment whose install command fails with output
"syntax error" (e.g. a compile error surfaced through go get). -/
def envInstallFail : Env :=
  { test := { exitOk := true, output := "" }
    build := { exitOk := true, output := "" }
    install := { exitOk := false, output := "syntax error" } }

/-- C5: the dedup mechanism inside install does suppress re-printing when
it is handed the previous failure output as lastError, but every
invocation of install from the watch callback of rerun (unnamed variant)
passes lastError = "" — errorOutput is a freshly zero-initialised local of
each callback run — so a second pipeline run failing with output identical
to the first still re-prints it, while still returning a failure err. -/
theorem install_dedup_dead :
    (install { exitOk := false, output := "syntax error" } "syntax error").printed
      = false ∧
    (rerunCallback false false false envInstallFail).installPrinted = true ∧
    (rerunCallback false false false envInstallFail).installErr
      = some "compile error" ∧
    (rerunCallback false false false envInstallFail).signals = [] := by
  refine ⟨?_, ?_, rfl, rfl⟩ <;> decide

/-- C8: with never-run active, for every flag combination and every
pipeline outcome, neither the initial pass nor the watch callback of rerun
(unnamed variant) sends any signal on runch — hence the supervisor control
loop consumes no signal and launches nothing (its event trace is empty) —
while exactly the same stages are invoked as with never-run inactive. -/
theorem never_run_suppression (do_tests do_build : Bool) (env : Env) :
    (rerunInit do_tests do_build true env).signals = [] ∧
    (rerunCallback do_tests do_build true env).signals = [] ∧
    (rerunInit do_tests do_build true env).stages
      = (rerunInit do_tests do_build false env).stages ∧
    (rerunCallback do_tests do_build true env).stages
      = (rerunCallback do_tests do_build false env).stages ∧
    run ((rerunInit do_tests do_build true env).signals.map (fun b => (b, true)))
      = [] ∧
    run ((rerunCallback do_tests do_build true env).signals.map (fun b => (b, true)))
      = [] := by
  have h1 : (rerunInit do_tests do_build true env).signals = [] := by
    simp [rerunInit]
  have h2 : (rerunCallback do_tests do_build true env).signals = [] := by
    by_cases htf : (do_tests && !(gotest env.test)) = true <;>
      simp [rerunCallback, htf]
  refine ⟨h1, h2, ?_, ?_, ?_, ?_⟩
  · simp [rerunInit]
  · by_cases htf : (do_tests && !(gotest env.test)) = true <;>
      simp [rerunCallback, htf]
  · rw [h1]; rfl
  · rw [h2]; rfl

/-! ## Change scanner: mtime check and debounce (scanChanges, both files)

Inside one walk pass, every entry that reaches the mtime check runs

    if info.ModTime().After(last) { cb(..); last = time.Now() }

An entry is modelled as a pair (mtime, now): its last-modified time and
the wall-clock value time.Now() would return at the moment the entry is
visited.  scanPass folds the check over the entries of one pass and
returns the final value of last together with the number of cb
invocations. -/

def scanPass : Nat → List (Nat × Nat) → Nat × Nat
  | last, [] => (last, 0)
  | last, e :: rest =>
      if last < e.1 then
        ((scanPass e.2 rest).1, (scanPass e.2 rest).2 + 1)
      else scanPass last rest

theorem scanPass_quiet (es : List (Nat × Nat)) :
    ∀ last : Nat, (∀ e ∈ es, e.1 ≤ last) → scanPass last es = (last, 0) := by
  induction es with
  | nil => intro last _; rfl
  | cons e rest ih =>
      intro last h
      have he : e.1 ≤ last := h e (List.mem_cons_self e rest)
      have hlt : ¬ last < e.1 := not_lt.mpr he
      rw [scanPass, if_neg hlt]
      exact ih last (fun x hx => h x (List.mem_cons_of_mem e hx))

theorem scanPass_fires (es : List (Nat × Nat)) (T0 : Nat) :
    ∀ last : Nat, (∀ e ∈ es, e.1 ≤ T0) → (∀ e ∈ es, T0 ≤ e.2) →
      (∃ e ∈ es, last < e.1) →
      (scanPass last es).2 = 1 ∧ T0 ≤ (scanPass last es).1 ∧
        ∃ e ∈ es, (scanPass last es).1 = e.2 := by
  induction es with
  | nil => intro last _ _ hf; simp at hf
  | cons e rest ih =>
      intro last hmt hnow hf
      by_cases hlt : last < e.1
      · have hq : scanPass e.2 rest = (e.2, 0) := by
          refine scanPass_quiet rest e.2 (fun x hx => ?_)
          exact le_trans (hmt x (List.mem_cons_of_mem e hx))
            (hnow e (List.mem_cons_self e rest))
        rw [scanPass, if_pos hlt, hq]
        exact ⟨rfl, hnow e (List.mem_cons_self e rest),
          ⟨e, List.mem_cons_self e rest, rfl⟩⟩
      · have hf2 : ∃ x ∈ rest, last < x.1 := by
          rcases hf with ⟨x, hx, hlx⟩
          rcases List.mem_cons.mp hx with rfl | hx2
          · exact absurd hlx hlt
          · exact ⟨x, hx2, hlx⟩
        have hmt2 : ∀ x ∈ rest, x.1 ≤ T0 :=
          fun x hx => hmt x (List.mem_cons_of_mem e hx)
        have hnow2 : ∀ x ∈ rest, T0 ≤ x.2 :=
          fun x hx => hnow x (List.mem_cons_of_mem e hx)
        obtain ⟨h1, h2, x, hx, h3⟩ := ih last hmt2 hnow2 hf2
        rw [scanPass, if_neg hlt]
        exact ⟨h1, h2, ⟨x, List.mem_cons_of_mem e hx, h3⟩⟩

/-- C7: within one walk pass over entries whose modification times all lie
at or before the pass start T0 (a burst of edits before the pass), while
the wall clock during the pass is at or after T0, an entry modified after
the internal timestamp causes exactly one cb invocation; the internal
timestamp is updated to the wall-clock value at detection (the now
component of a visited entry, not an mtime); and a following pass over
entries not modified after T0 causes no cb invocation at all. -/
theorem scanChanges_debounce (es es2 : List (Nat × Nat)) (last T0 : Nat)
    (hmt : ∀ e ∈ es, e.1 ≤ T0) (hnow : ∀ e ∈ es, T0 ≤ e.2)
    (hfired : ∃ e ∈ es, last < e.1)
    (hmt2 : ∀ e ∈ es2, e.1 ≤ T0) :
    (scanPass last es).2 = 1 ∧
    es.any (fun e => (scanPass last es).1 == e.2) = true ∧
    (scanPass (scanPass last es).1 es2).2 = 0 := by
  obtain ⟨h1, h2, x, hx, h3⟩ := scanPass_fires es T0 last hmt hnow hfired
  refine ⟨h1, ?_, ?_⟩
  · rw [List.any_eq_true]
    exact ⟨x, hx, by simp [h3]⟩
  · have : scanPass (scanPass last es).1 es2 = ((scanPass last es).1, 0) :=
      scanPass_quiet es2 _ (fun e he => le_trans (hmt2 e he) h2)
    rw [this]

theorem scanChanges_debounce_witness :
    (scanPass 0 [(5, 10)]).2 = 1 ∧
    [(5, 10)].any (fun e => (scanPass 0 [(5, 10)]).1 == e.2) = true ∧
    (scanPass (scanPass 0 [(5, 10)]).1 [(5, 10)]).2 = 0 :=
  scanChanges_debounce [(5, 10)] [(5, 10)] 0 7 (by decide) (by decide)
    (by decide) (by decide)

/-! ## Change scanner: directory walk and exclusion rules (rerun.go)

The walk callback of scanChanges (rerun.go) is

    filepath.Walk(dir, func(p string, info os.FileInfo, err error) error {
        if *no_git && info.IsDir() && p == filepath.Join(dir, ".git") {
            return filepath.SkipDir
        }
        if *ignore != "" {
            match, _ := path.Match(*ignore, path.Base(p))
            if match { return filepath.SkipDir }
        }
        if info.ModTime().After(last) { cb(dir); last = time.Now() }
        return nil
    })

Paths are modelled as lists of components, the tree as FSNode, and the
stdlib glob matcher path.Match as an opaque predicate matchFn carried in
the configuration.  Walk semantics of filepath.Walk: SkipDir returned on
a directory skips descending into it and continues with its siblings;
SkipDir returned on a non-directory entry skips the remaining unvisited
entries of the containing directory. -/

inductive FSNode where
  | file (name : String) (mtime : Nat)
  | dir (name : String) (mtime : Nat) (children : List FSNode)

def FSNode.name : FSNode → String
  | file n _ => n
  | dir n _ _ => n

structure ScanCfg where
  no_git : Bool
  ignore : String
  matchFn : String → String → Bool

def baseName (p : List String) : String := p.getLastD ""

/-- Whether the walk callback returns SkipDir for the entry at path p
(isDir tells whether the entry is a directory; the .git rule applies only
to directories, the glob rule to every entry). -/
def skipEntry (c : ScanCfg) (gitP p : List String) (isDir : Bool) : Bool :=
  (c.no_git && isDir && p == gitP) || (c.ignore != "" && c.matchFn c.ignore (baseName p))

mutual
/-- One walk of the subtree whose root sits at path p.  Returns the list
of (path, mtime) entries that reach the mtime check, paired with a flag
telling whether a SkipDir returned on a non-directory entry must abort
the remaining siblings in the containing directory. -/
def walkNode (c : ScanCfg) (gitP p : List String) : FSNode → List (List String × Nat) × Bool
  | FSNode.file _ mt =>
      if skipEntry c gitP p false then ([], true)
      else ([(p, mt)], false)
  | FSNode.dir _ mt cs =>
      if skipEntry c gitP p true then ([], false)
      else ((p, mt) :: walkChildren c gitP p cs, false)
def walkChildren (c : ScanCfg) (gitP p : List String) : List FSNode → List (List String × Nat)
  | [] => []
  | t :: ts =>
      if (walkNode c gitP (p ++ [t.name]) t).2 then
        (walkNode c gitP (p ++ [t.name]) t).1
      else
        (walkNode c gitP (p ++ [t.name]) t).1 ++ walkChildren c gitP p ts
end

/-- The entries of one scan pass that reach the mtime check, walking the
tree t rooted at path root (the .git rule compares against root/.git). -/
def scanEntries (c : ScanCfg) (root : List String) (t : FSNode) : List (List String × Nat) :=
  (walkNode c (root ++ [".git"]) root t).1

/-- Whether a pass whose checked entries are es reports a change against
the internal timestamp last. -/
def passFires (last : Nat) (es : List (List String × Nat)) : Bool :=
  es.any (fun e => decide (last < e.2))

/-- Navigate from a node along a relative path of component names,
resolving each component against the first child carrying that name. -/
def subtreeAt : FSNode → List String → Option FSNode
  | t, [] => some t
  | t, x :: rel =>
      match t with
      | FSNode.file _ _ => none
      | FSNode.dir _ _ cs =>
          match cs.find? (fun u => u.name == x) with
          | some child => subtreeAt child rel
          | none => none

/-- Sibling names are pairwise distinct. -/
def sibNamesOk : List FSNode → Bool
  | [] => true
  | t :: ts => ts.all (fun u => u.name != t.name) && sibNamesOk ts

mutual
/-- Every directory of the tree has pairwise distinct child names (true
of any real filesystem tree). -/
def nodupNames : FSNode → Bool
  | FSNode.file _ _ => true
  | FSNode.dir _ _ cs => sibNamesOk cs && nodupNamesList cs
def nodupNamesList : List FSNode → Bool
  | [] => true
  | t :: ts => nodupNames t && nodupNamesList ts
end

/-- Bool test that q is an initial segment of path p. -/
def leadsTo (q p : List String) : Bool := p.take q.length == q

/-! ### Path lemmas -/

theorem take_append_self (q : List String) :
    ∀ r : List String, (q ++ r).take q.length = q := by
  induction q with
  | nil => intro r; rfl
  | cons x xs ih =>
      intro r
      show x :: ((xs ++ r).take xs.length) = x :: xs
      rw [ih]

theorem take_drop_last (e p : List String) (nm : String)
    (h : e.take (p.length + 1) = p ++ [nm]) : e.take p.length = p := by
  have h2 : (e.take (p.length + 1)).take p.length = (p ++ [nm]).take p.length := by
    rw [h]
  rw [List.take_take, min_eq_left (Nat.le_succ _)] at h2
  rw [take_append_self p [nm]] at h2
  exact h2

theorem take_of_take_longer (e q : List String) (x : String) (r : List String)
    (h : e.take (q ++ x :: r).length = q ++ x :: r) :
    e.take (q.length + 1) = q ++ [x] := by
  have hlen : q.length + 1 ≤ (q ++ x :: r).length := by
    simp [List.length_append]
  have h2 : (e.take (q ++ x :: r).length).take (q.length + 1)
      = (q ++ x :: r).take (q.length + 1) := by rw [h]
  rw [List.take_take, min_eq_left hlen] at h2
  have h3 : (q ++ x :: r).take (q.length + 1) = q ++ [x] := by
    have hq : q ++ x :: r = (q ++ [x]) ++ r := by simp
    have hl : (q ++ [x]).length = q.length + 1 := by simp
    rw [hq, ← hl, take_append_self (q ++ [x]) r]
  rw [h3] at h2
  exact h2

theorem no_strict_extension (p : List String) (x : String) (r : List String) :
    p.take (p ++ x :: r).length ≠ p ++ x :: r := by
  intro h
  have h1 : (p.take (p ++ x :: r).length).length ≤ p.length := by
    rw [List.length_take]
    exact min_le_right _ _
  rw [h] at h1
  simp [List.length_append] at h1

/-! ### Walk structure lemmas -/

theorem walkNode_stop_empty (c : ScanCfg) (gitP q : List String) (t : FSNode)
    (h : (walkNode c gitP q t).2 = true) : (walkNode c gitP q t).1 = [] := by
  cases t with
  | file n mt =>
      by_cases hs : skipEntry c gitP q false = true <;>
        simp [walkNode, hs] at h ⊢
  | dir n mt cs =>
      by_cases hs : skipEntry c gitP q true = true <;>
        simp [walkNode, hs] at h

theorem walkChildren_factor (c : ScanCfg) (gitP p : List String) :
    ∀ (cs : List FSNode) (e : List String × Nat), e ∈ walkChildren c gitP p cs →
      ∃ t2 ∈ cs, e ∈ (walkNode c gitP (p ++ [t2.name]) t2).1 := by
  intro cs
  induction cs with
  | nil => intro e he; simp [walkChildren] at he
  | cons t ts ih =>
      intro e he
      by_cases hr : (walkNode c gitP (p ++ [t.name]) t).2 = true
      · rw [walkChildren, if_pos hr] at he
        exact ⟨t, List.mem_cons_self t ts, he⟩
      · rw [walkChildren, if_neg hr] at he
        rcases List.mem_append.mp he with he2 | he2
        · exact ⟨t, List.mem_cons_self t ts, he2⟩
        · obtain ⟨t2, h1, h2⟩ := ih e he2
          exact ⟨t2, List.mem_cons_of_mem t h1, h2⟩

theorem walkChildren_stop (c : ScanCfg) (gitP p : List String) (f : FSNode)
    (hf : (walkNode c gitP (p ++ [f.name]) f).2 = true) :
    ∀ (pre : List FSNode) (post : List FSNode) (e : List String × Nat),
      e ∈ walkChildren c gitP p (pre ++ f :: post) →
      ∃ t2 ∈ pre, e ∈ (walkNode c gitP (p ++ [t2.name]) t2).1 := by
  intro pre
  induction pre with
  | nil =>
      intro post e he
      rw [List.nil_append, walkChildren, if_pos hf] at he
      rw [walkNode_stop_empty c gitP (p ++ [f.name]) f hf] at he
      simp at he
  | cons t ts ih =>
      intro post e he
      rw [List.cons_append] at he
      by_cases hr : (walkNode c gitP (p ++ [t.name]) t).2 = true
      · rw [walkChildren, if_pos hr] at he
        exact ⟨t, List.mem_cons_self t ts, he⟩
      · rw [walkChildren, if_neg hr] at he
        rcases List.mem_append.mp he with he2 | he2
        · exact ⟨t, List.mem_cons_self t ts, he2⟩
        · obtain ⟨t2, h1, h2⟩ := ih post e he2
          exact ⟨t2, List.mem_cons_of_mem t h1, h2⟩

theorem walkNode_path_depth (c : ScanCfg) (gitP : List String) :
    ∀ (d : Nat) (t : FSNode), sizeOf t ≤ d →
      ∀ (p : List String) (e : List String × Nat),
        e ∈ (walkNode c gitP p t).1 → e.1.take p.length = p := by
  intro d
  induction d with
  | zero =>
      intro t ht
      cases t <;> simp at ht
  | succ d ih =>
      intro t ht p e he
      cases t with
      | file n mt =>
          by_cases hs : skipEntry c gitP p false = true
          · simp [walkNode, hs] at he
          · simp [walkNode, hs] at he
            simp [he]
      | dir n mt cs =>
          by_cases hs : skipEntry c gitP p true = true
          · simp [walkNode, hs] at he
          · simp [walkNode, hs] at he
            rcases he with he | he
            · simp [he]
            · obtain ⟨t2, ht2, he2⟩ := walkChildren_factor c gitP p cs e he
              have hsz : sizeOf t2 ≤ d := by
                have h1 : sizeOf t2 < sizeOf cs := List.sizeOf_lt_of_mem ht2
                have h2 : sizeOf (FSNode.dir n mt cs) ≤ d + 1 := ht
                simp at h2
                omega
              have hp2 := ih t2 hsz (p ++ [t2.name]) e he2
              have hl : (p ++ [t2.name]).length = p.length + 1 := by simp
              rw [hl] at hp2
              exact take_drop_last e.1 p t2.name hp2

theorem walkNode_path (c : ScanCfg) (gitP p : List String) (t : FSNode)
    (e : List String × Nat) (he : e ∈ (walkNode c gitP p t).1) :
    e.1.take p.length = p :=
  walkNode_path_depth c gitP (sizeOf t) t (le_refl _) p e he

/-! ### Name uniqueness lemmas -/

theorem sibNamesOk_split :
    ∀ (l1 l2 : List FSNode), sibNamesOk (l1 ++ l2) = true →
      ∀ a ∈ l1, ∀ b ∈ l2, a.name ≠ b.name := by
  intro l1
  induction l1 with
  | nil => intro l2 _ a ha; simp at ha
  | cons t ts ih =>
      intro l2 hok a ha b hb
      have h1 : ((ts ++ l2).all (fun u => u.name != t.name)) = true
          ∧ sibNamesOk (ts ++ l2) = true := by
        simpa [sibNamesOk, Bool.and_eq_true] using hok
      rcases List.mem_cons.mp ha with rfl | ha2
      · have h2 := List.all_eq_true.mp h1.1 b (List.mem_append_right ts hb)
        simp at h2
        exact fun hc => h2 hc.symm
      · exact ih l2 h1.2 a ha2 b hb

theorem find_name_unique (x : String) :
    ∀ (cs : List FSNode) (t2 : FSNode), sibNamesOk cs = true → t2 ∈ cs →
      t2.name = x → cs.find? (fun u => u.name == x) = some t2 := by
  intro cs
  induction cs with
  | nil => intro t2 _ h; simp at h
  | cons t ts ih =>
      intro t2 hnd hmem hname
      have hnd1 : (ts.all (fun u => u.name != t.name)) = true
          ∧ sibNamesOk ts = true := by
        simpa [sibNamesOk, Bool.and_eq_true] using hnd
      rcases List.mem_cons.mp hmem with rfl | hmem2
      · exact List.find?_cons_of_pos ts (by simp [hname])
      · have hne : t.name ≠ x := by
          have h2 := List.all_eq_true.mp hnd1.1 t2 hmem2
          simp at h2
          intro hc
          exact h2 (hname.trans hc.symm)
        rw [List.find?_cons_of_neg ts (by simpa using hne)]
        exact ih t2 hnd1.2 hmem2 hname

theorem nodupNamesList_mem :
    ∀ (cs : List FSNode) (t : FSNode), nodupNamesList cs = true → t ∈ cs →
      nodupNames t = true := by
  intro cs
  induction cs with
  | nil => intro t _ h; simp at h
  | cons u us ih =>
      intro t hnd hmem
      have h1 : nodupNames u = true ∧ nodupNamesList us = true := by
        simpa [nodupNamesList, Bool.and_eq_true] using hnd
      rcases List.mem_cons.mp hmem with rfl | hmem2
      · exact h1.1
      · exact ih t h1.2 hmem2

/-! ### Exclusion of matched directories -/

theorem walk_excluded_aux (c : ScanCfg) (gitP : List String) :
    ∀ (rel : List String) (t : FSNode) (p : List String)
      (n : String) (mt : Nat) (cs : List FSNode),
      nodupNames t = true →
      subtreeAt t rel = some (FSNode.dir n mt cs) →
      skipEntry c gitP (p ++ rel) true = true →
      ∀ e ∈ (walkNode c gitP p t).1, e.1.take (p ++ rel).length ≠ p ++ rel := by
  intro rel
  induction rel with
  | nil =>
      intro t p n mt cs _ hsub hskip e he
      have ht : t = FSNode.dir n mt cs := by
        simpa [subtreeAt] using hsub
      subst ht
      have hskip2 : skipEntry c gitP p true = true := by simpa using hskip
      simp [walkNode, hskip2] at he
  | cons x rel2 ih =>
      intro t p n mt cs hnd hsub hskip e he
      cases t with
      | file n1 mt1 => simp [subtreeAt] at hsub
      | dir n1 mt1 cs1 =>
          by_cases hs : skipEntry c gitP p true = true
          · simp [walkNode, hs] at he
          · simp [walkNode, hs] at he
            rcases he with he | he
            · rw [he]
              exact no_strict_extension p x rel2
            · simp only [subtreeAt] at hsub
              cases hfind : cs1.find? (fun u => u.name == x) with
              | none => rw [hfind] at hsub; simp at hsub
              | some c0 =>
                  rw [hfind] at hsub
                  simp only [] at hsub
                  obtain ⟨t2, ht2, he2⟩ := walkChildren_factor c gitP p cs1 e he
                  have hnd1 : sibNamesOk cs1 = true ∧ nodupNamesList cs1 = true := by
                    simpa [nodupNames, Bool.and_eq_true] using hnd
                  by_cases hxname : t2.name = x
                  · have hft2 : cs1.find? (fun u => u.name == x) = some t2 :=
                      find_name_unique x cs1 t2 hnd1.1 ht2 hxname
                    rw [hfind] at hft2
                    injection hft2 with hc
                    subst hc
                    have hndt2 : nodupNames c0 = true :=
                      nodupNamesList_mem cs1 c0 hnd1.2 ht2
                    have hskip2 : skipEntry c gitP ((p ++ [x]) ++ rel2) true = true := by
                      simpa [List.append_assoc] using hskip
                    rw [hxname] at he2
                    have hmain := ih c0 (p ++ [x]) n mt cs hndt2 hsub hskip2 e he2
                    have hassoc : (p ++ [x]) ++ rel2 = p ++ x :: rel2 := by simp
                    rw [hassoc] at hmain
                    exact hmain
                  · intro hcontra
                    have hpA := walkNode_path c gitP (p ++ [t2.name]) t2 e he2
                    have hl : (p ++ [t2.name]).length = p.length + 1 := by simp
                    rw [hl] at hpA
                    have hx2 : e.1.take (p.length + 1) = p ++ [x] :=
                      take_of_take_longer e.1 p x rel2 hcontra
                    rw [hpA] at hx2
                    have hx3 : t2.name = x := by simpa using hx2
                    exact hxname hx3

/-- Configuration with the default flags of rerun.go: -no-git on and no
ignore pattern. -/
def cfgNoGit : ScanCfg :=
  { no_git := true, ignore := "", matchFn := fun _ _ => false }

/-- A tree whose .git directory is nested one level below the watch root:
root r contains a, a contains .git, .git contains file f with mtime 5. -/
def treeNestedGit : FSNode :=
  FSNode.dir "r" 0 [FSNode.dir "a" 0 [FSNode.dir ".git" 0 [FSNode.file "f" 5]]]

/-- C6 counterexample: with the .git skip enabled, a scan pass still
checks a file strictly inside a nested directory named .git (the code only
compares the full path against watchRoot/.git), and the pass reports a
change for a modification of that file — contradicting the claim for a
subdirectory whose base name matches the exclusion policy at arbitrary
nesting depth. -/
theorem scan_nested_git_reported :
    ((["r", "a", ".git", "f"], 5) ∈ scanEntries cfgNoGit ["r"] treeNestedGit) ∧
    passFires 0 (scanEntries cfgNoGit ["r"] treeNestedGit) = true ∧
    cfgNoGit.no_git = true ∧
    baseName ["r", "a", ".git"] = ".git" := by
  refine ⟨?_, rfl, rfl, rfl⟩
  decide

/-- C6 (amended): for a directory at relative path rel below the watch
root for which the walk callback returns SkipDir — i.e. the top-level
.git directory when the .git skip is on, or any directory whose base name
matches the configured ignore glob, at any nesting depth — no entry of the
scan pass lies inside that directory (in a tree with distinct sibling
names), so no file modification inside it can make the pass report a
change; nested directories named .git are, however, not excluded by the
.git rule (see the counterexample). -/
theorem scanChanges_excludes_matched_dirs (c : ScanCfg) (root rel : List String)
    (t : FSNode) (n : String) (mt : Nat) (cs : List FSNode)
    (hnd : nodupNames t = true)
    (hsub : subtreeAt t rel = some (FSNode.dir n mt cs))
    (hskip : skipEntry c (root ++ [".git"]) (root ++ rel) true = true) :
    (scanEntries c root t).all (fun e => !(leadsTo (root ++ rel) e.1)) = true := by
  rw [List.all_eq_true]
  intro e he
  have h := walk_excluded_aux c (root ++ [".git"]) rel t root n mt cs hnd hsub hskip e he
  simpa [leadsTo, List.length_append] using h

/-- Configuration with an ignore glob that matches the literal name tmp. -/
def cfgTmp : ScanCfg :=
  { no_git := true, ignore := "tmp", matchFn := fun pat s => pat == s }

/-- A tree with an ignored subdirectory tmp next to a regular file. -/
def treeTmp : FSNode :=
  FSNode.dir "r" 0 [FSNode.dir "tmp" 0 [FSNode.file "f" 9], FSNode.file "g" 1]

theorem scanChanges_excludes_matched_dirs_witness :
    (scanEntries cfgTmp ["r"] treeTmp).all
      (fun e => !(leadsTo (["r"] ++ ["tmp"]) e.1)) = true :=
  scanChanges_excludes_matched_dirs cfgTmp ["r"] ["tmp"] treeTmp "tmp" 0
    [FSNode.file "f" 9] (by decide) rfl rfl

/-! ### A glob match on a regular file skips its remaining siblings -/

theorem walk_file_match_aux (c : ScanCfg) (gitP : List String)
    (fname : String) (fmt : Nat)
    (hglob : c.ignore ≠ "")
    (hmatch : c.matchFn c.ignore fname = true) :
    ∀ (rel : List String) (t : FSNode) (p : List String)
      (n : String) (mt : Nat) (pre post : List FSNode) (sib : FSNode),
      nodupNames t = true →
      subtreeAt t rel
        = some (FSNode.dir n mt (pre ++ FSNode.file fname fmt :: post)) →
      sib ∈ post →
      ∀ e ∈ (walkNode c gitP p t).1,
        e.1.take (p ++ rel ++ [sib.name]).length ≠ p ++ rel ++ [sib.name] := by
  intro rel
  induction rel with
  | nil =>
      intro t p n mt pre post sib hnd hsub hsib e he
      have ht : t = FSNode.dir n mt (pre ++ FSNode.file fname fmt :: post) := by
        simpa [subtreeAt] using hsub
      subst ht
      simp only [List.append_nil]
      by_cases hs : skipEntry c gitP p true = true
      · simp [walkNode, hs] at he
      · simp [walkNode, hs] at he
        rcases he with he | he
        · rw [he]
          exact no_strict_extension p sib.name []
        · have hskipf : skipEntry c gitP (p ++ [fname]) false = true := by
            simp [skipEntry, baseName, hmatch, hglob]
          have hstop : (walkNode c gitP
              (p ++ [(FSNode.file fname fmt).name]) (FSNode.file fname fmt)).2
              = true := by
            simp [walkNode, FSNode.name, hskipf]
          obtain ⟨t2, ht2, he2⟩ :=
            walkChildren_stop c gitP p (FSNode.file fname fmt) hstop pre post e he
          have hnd1 : sibNamesOk (pre ++ FSNode.file fname fmt :: post) = true := by
            have := (Bool.and_eq_true _ _).mp (by simpa [nodupNames] using hnd)
            exact this.1
          have hname : t2.name ≠ sib.name :=
            sibNamesOk_split pre (FSNode.file fname fmt :: post) hnd1 t2 ht2 sib
              (List.mem_cons_of_mem _ hsib)
          intro hcontra
          have hpA := walkNode_path c gitP (p ++ [t2.name]) t2 e he2
          have hl : (p ++ [t2.name]).length = p.length + 1 := by simp
          rw [hl] at hpA
          have hl2 : (p ++ [sib.name]).length = p.length + 1 := by simp
          rw [hl2] at hcontra
          rw [hpA] at hcontra
          exact hname (by simpa using hcontra)
  | cons x rel2 ih =>
      intro t p n mt pre post sib hnd hsub hsib e he
      have hgoal : p ++ (x :: rel2) ++ [sib.name] = p ++ x :: (rel2 ++ [sib.name]) := by
        simp
      rw [hgoal]
      cases t with
      | file n1 mt1 => simp [subtreeAt] at hsub
      | dir n1 mt1 cs1 =>
          by_cases hs : skipEntry c gitP p true = true
          · simp [walkNode, hs] at he
          · simp [walkNode, hs] at he
            rcases he with he | he
            · rw [he]
              exact no_strict_extension p x (rel2 ++ [sib.name])
            · simp only [subtreeAt] at hsub
              cases hfind : cs1.find? (fun u => u.name == x) with
              | none => rw [hfind] at hsub; simp at hsub
              | some c0 =>
                  rw [hfind] at hsub
                  simp only [] at hsub
                  obtain ⟨t2, ht2, he2⟩ := walkChildren_factor c gitP p cs1 e he
                  have hnd1 : sibNamesOk cs1 = true ∧ nodupNamesList cs1 = true := by
                    simpa [nodupNames, Bool.and_eq_true] using hnd
                  by_cases hxname : t2.name = x
                  · have hft2 : cs1.find? (fun u => u.name == x) = some t2 :=
                      find_name_unique x cs1 t2 hnd1.1 ht2 hxname
                    rw [hfind] at hft2
                    injection hft2 with hc
                    subst hc
                    have hndt2 : nodupNames c0 = true :=
                      nodupNamesList_mem cs1 c0 hnd1.2 ht2
                    rw [hxname] at he2
                    have hmain := ih c0 (p ++ [x]) n mt pre post sib hndt2 hsub hsib e he2
                    have hassoc : (p ++ [x]) ++ rel2 ++ [sib.name]
                        = p ++ x :: (rel2 ++ [sib.name]) := by simp
                    rw [hassoc] at hmain
                    exact hmain
                  · intro hcontra
                    have hpA := walkNode_path c gitP (p ++ [t2.name]) t2 e he2
                    have hl : (p ++ [t2.name]).length = p.length + 1 := by simp
                    rw [hl] at hpA
                    have hx2 : e.1.take (p.length + 1) = p ++ [x] :=
                      take_of_take_longer e.1 p x (rel2 ++ [sib.name]) hcontra
                    rw [hpA] at hx2
                    exact hxname (by simpa using hx2)

/-- C10: with a non-empty ignore pattern, the glob is matched against the
base name of every visited entry — for a regular file at path
root/rel/fname this makes the callback return SkipDir (first conjunct) —
and a match on a regular file makes the walk skip the remaining unvisited
entries of its containing directory: in a tree with distinct sibling
names, no entry of the scan pass lies at or below any sibling listed after
the matching file, so modifications of those siblings go unreported in
that pass (second conjunct). -/
theorem scanChanges_file_match_skips_siblings (c : ScanCfg) (root rel : List String)
    (t sib : FSNode) (n fname : String) (mt fmt : Nat) (pre post : List FSNode)
    (hnd : nodupNames t = true)
    (hsub : subtreeAt t rel
      = some (FSNode.dir n mt (pre ++ FSNode.file fname fmt :: post)))
    (hglob : c.ignore ≠ "")
    (hmatch : c.matchFn c.ignore fname = true)
    (hsib : sib ∈ post) :
    skipEntry c (root ++ [".git"]) (root ++ rel ++ [fname]) false = true ∧
    (scanEntries c root t).all
      (fun e => !(leadsTo (root ++ rel ++ [sib.name]) e.1)) = true := by
  constructor
  · simp [skipEntry, baseName, hmatch, hglob]
  · rw [List.all_eq_true]
    intro e he
    have h := walk_file_match_aux c (root ++ [".git"]) fname fmt hglob hmatch rel t
      root n mt pre post sib hnd hsub hsib e he
    simpa [leadsTo, List.length_append] using h

/-- Configuration with an ignore glob matching the literal name skipme. -/
def cfgSkipme : ScanCfg :=
  { no_git := false, ignore := "skipme", matchFn := fun pat s => pat == s }

/-- A directory whose children are, in walk order, the file a, the
matching file skipme, and the file b. -/
def treeSkipme : FSNode :=
  FSNode.dir "r" 0
    [FSNode.file "a" 1, FSNode.file "skipme" 2, FSNode.file "b" 9]

theorem scanChanges_file_match_skips_siblings_witness :
    skipEntry cfgSkipme (["r"] ++ [".git"]) (["r"] ++ [] ++ ["skipme"]) false
      = true ∧
    (scanEntries cfgSkipme ["r"] treeSkipme).all
      (fun e => !(leadsTo (["r"] ++ [] ++ [(FSNode.file "b" 9).name]) e.1))
      = true :=
  scanChanges_file_match_skips_siblings cfgSkipme ["r"] [] treeSkipme
    (FSNode.file "b" 9) "r" "skipme" 0 2 [FSNode.file "a" 1] [FSNode.file "b" 9]
    (by decide) rfl (by decide) rfl (List.mem_cons_self _ _)

/-! ## Walk callback error handling (scanChanges callbacks)

filepath.Walk invokes the callback with a non-nil err argument in two
cases: when os.Lstat fails on an entry it passes that entry's path with
info = nil, and when reading a directory's contents fails it passes the
directory's own (non-nil) info.  Neither callback ever reads err; the
model returns none when the callback dereferences a nil FileInfo, which
in Go is a panic that aborts the walk and the whole program. -/

structure FileInfo where
  isDir : Bool
  modTime : Nat
deriving DecidableEq

inductive WalkRet where
  | nil
  | skipDir
deriving DecidableEq

/-- The walk callback of scanChanges (rerun.go), applied to one entry at
path p: .git check (touches info), then glob check (does not touch info),
then the mtime check (touches info).  The err argument is ignored by the
code.  Returns the callback's return value paired with whether cb fired;
none models the nil-FileInfo dereference panic. -/
def walkFnRerun (no_git : Bool) (ignore : String) (mf : String → String → Bool)
    (gitP p : List String) (info : Option FileInfo) (err : Option String)
    (last : Nat) : Option (WalkRet × Bool) :=
  let mtimeCheck : Option (WalkRet × Bool) :=
    match info with
    | none => none
    | some i =>
        if last < i.modTime then some (WalkRet.nil, true)
        else some (WalkRet.nil, false)
  let ignoreCheck : Option (WalkRet × Bool) :=
    if ignore != "" && mf ignore (baseName p) then some (WalkRet.skipDir, false)
    else mtimeCheck
  let _ := err
  if no_git then
    match info with
    | none => none
    | some i =>
        if i.isDir && p == gitP then some (WalkRet.skipDir, false)
        else ignoreCheck
  else ignoreCheck

/-- The walk callback of scanChanges (unnamed variant): only the mtime
check, the err argument is ignored. -/
def walkFnUnnamed (info : Option FileInfo) (err : Option String)
    (last : Nat) : Option (WalkRet × Bool) :=
  let _ := err
  match info with
  | none => none
  | some i =>
      if last < i.modTime then some (WalkRet.nil, true)
      else some (WalkRet.nil, false)

/-- C9 counterexample: for an entry whose file-info is unavailable (the
os.Lstat failure case, e.g. permission denied, where filepath.Walk passes
info = nil), the callback of rerun.go with its default no_git = true
dereferences the nil info and panics, as does the callback of the unnamed
variant — contradicting the claim that such errors are swallowed and the
walk continues. -/
theorem walkFn_panics_on_missing_info :
    walkFnRerun true "" (fun _ _ => false) ["r", ".git"] ["r", "x"] none
      (some "permission denied") 0 = none ∧
    walkFnUnnamed none (some "permission denied") 0 = none := by
  exact ⟨rfl, rfl⟩

/-- C9 (amended): when the entry's info is available (the
directory-read-failure case), both callbacks ignore the err argument,
return normally and the walk continues; when the info is unavailable
(nil), the rerun.go callback with no_git on (the default) panics on the
nil dereference in info.IsDir, the unnamed variant's callback panics in
info.ModTime, and with no_git off the rerun.go callback panics unless the
ignore glob matches the entry's base name, in which case SkipDir is
returned before info is touched. -/
theorem walkFn_error_handling (ignore : String) (mf : String → String → Bool)
    (gitP p : List String) (i : FileInfo) (err : Option String) (last : Nat)
    (ng : Bool) :
    (walkFnRerun ng ignore mf gitP p (some i) err last).isSome = true ∧
    (walkFnUnnamed (some i) err last).isSome = true ∧
    walkFnRerun true ignore mf gitP p none err last = none ∧
    walkFnUnnamed none err last = none ∧
    walkFnRerun false ignore mf gitP p none err last
      = (if ignore != "" && mf ignore (baseName p)
         then some (WalkRet.skipDir, false) else none) := by
  refine ⟨?_, ?_, ?_, rfl, ?_⟩
  · by_cases h1 : (i.isDir && p == gitP) = true <;>
      by_cases h2 : (ignore != "" && mf ignore (baseName p)) = true <;>
        cases ng <;>
          by_cases h3 : last < i.modTime <;>
            simp [walkFnRerun, h1, h2, h3]
  · by_cases h3 : last < i.modTime <;> simp [walkFnUnnamed, h3]
  · by_cases h2 : (ignore != "" && mf ignore (baseName p)) = true <;>
      simp [walkFnRerun, h2]
  · by_cases h2 : (ignore != "" && mf ignore (baseName p)) = true <;>
      simp [walkFnRerun, h2]
